import Mathlib

/-!
Verification development for the `KinematicsFromURDF` component of the dbrt
robot tracker.  The C++ class (src/unnamed/part_000) wraps a URDF robot model
and a KDL kinematic tree; it caches a joint-angle vector, computes forward
kinematics of tracked links relative to a camera frame, and offers per-joint
index/limit queries used by the fusion tracker.

The embedding below mirrors that source file:

* `Frame` is KDL's rigid transform (rotation matrix + translation);
  `Frame.mul` and `Frame.inverse` are KDL's `operator*` and `Frame::Inverse`
  (rotation inverse by transpose).
* `KinTree`/`Segment` model the KDL tree produced by `kdl_parser`; each
  segment carries the dense joint number `q_nr` and an abstract pose function
  `poseFn` standing for `KDL::Segment::pose` (the per-segment geometry, which
  lives in the external KDL library).
* `jntToCart` is `KDL::TreeFkSolverPos_recursive::JntToCart`: it fails (the
  C++ returns a negative code) when the joint array length differs from the
  tree's joint count or the segment name is unknown, and otherwise multiplies
  the segment poses along the parent chain from the root.
* `UrdfModel` holds the parsed robot description consumed by the constructor.
* `KState` is the mutable state of a `KinematicsFromURDF` object; mutation is
  explicit state passing.  The ghost field `recomputations` counts the runs
  of `ComputeLinkTransforms` so that "does not recompute" is expressible.

Machine doubles are modelled as rationals; Eigen's `isApprox` (used by
`set_joint_angles` for the value-equality guard) is embedded with its default
`dummy_precision` of 1e-12.
-/

namespace DbrtKin

-- Core marks rational arithmetic irreducible, which blocks `decide` on the
-- concrete fixtures below; restore default reducibility for this file.
attribute [local semireducible] Rat.add Rat.mul Rat.sub Rat.inv Rat.ofScientific

/-- KDL 3-vector (`KDL::Vector`); its default constructor zero-initialises. -/
structure Vec3 where
  x : ℚ
  y : ℚ
  z : ℚ
deriving DecidableEq, Repr

/-- The zero vector, value of `KDL::Vector()`. -/
def Vec3.zero : Vec3 := ⟨0, 0, 0⟩

/-- Componentwise sum of two vectors. -/
def Vec3.add (a b : Vec3) : Vec3 := ⟨a.x + b.x, a.y + b.y, a.z + b.z⟩

/-- Componentwise negation. -/
def Vec3.neg (a : Vec3) : Vec3 := ⟨-a.x, -a.y, -a.z⟩

/-- KDL rotation matrix (`KDL::Rotation`, nine doubles, row major). -/
structure Rot where
  xx : ℚ
  xy : ℚ
  xz : ℚ
  yx : ℚ
  yy : ℚ
  yz : ℚ
  zx : ℚ
  zy : ℚ
  zz : ℚ
deriving DecidableEq, Repr

/-- The identity rotation, value of `KDL::Rotation()`. -/
def Rot.identity : Rot := ⟨1, 0, 0, 0, 1, 0, 0, 0, 1⟩

/-- Matrix product of two rotations (`KDL::Rotation::operator*`). -/
def Rot.mul (a b : Rot) : Rot :=
  ⟨a.xx * b.xx + a.xy * b.yx + a.xz * b.zx,
   a.xx * b.xy + a.xy * b.yy + a.xz * b.zy,
   a.xx * b.xz + a.xy * b.yz + a.xz * b.zz,
   a.yx * b.xx + a.yy * b.yx + a.yz * b.zx,
   a.yx * b.xy + a.yy * b.yy + a.yz * b.zy,
   a.yx * b.xz + a.yy * b.yz + a.yz * b.zz,
   a.zx * b.xx + a.zy * b.yx + a.zz * b.zx,
   a.zx * b.xy + a.zy * b.yy + a.zz * b.zy,
   a.zx * b.xz + a.zy * b.yz + a.zz * b.zz⟩

/-- Transpose; `KDL::Rotation::Inverse` for orthonormal matrices. -/
def Rot.transpose (a : Rot) : Rot :=
  ⟨a.xx, a.yx, a.zx, a.xy, a.yy, a.zy, a.xz, a.yz, a.zz⟩

/-- Matrix-vector product (`KDL::Rotation::operator*(Vector)`). -/
def Rot.apply (a : Rot) (v : Vec3) : Vec3 :=
  ⟨a.xx * v.x + a.xy * v.y + a.xz * v.z,
   a.yx * v.x + a.yy * v.y + a.yz * v.z,
   a.zx * v.x + a.zy * v.y + a.zz * v.z⟩

/-- KDL rigid transform (`KDL::Frame`): rotation `M`, translation `p`. -/
structure Frame where
  M : Rot
  p : Vec3
deriving DecidableEq, Repr

/-- `KDL::Frame()`: identity rotation and zero translation (the members'
default constructors). -/
def Frame.identity : Frame := ⟨Rot.identity, Vec3.zero⟩

/-- `KDL::operator*(Frame, Frame)`: `Frame(F1.M * F2.M, F1.M * F2.p + F1.p)`. -/
def Frame.mul (a b : Frame) : Frame :=
  ⟨a.M.mul b.M, (a.M.apply b.p).add a.p⟩

/-- `KDL::Frame::Inverse()`: `Frame(M.Inverse(), -(M.Inverse() * p))`. -/
def Frame.inverse (a : Frame) : Frame :=
  ⟨a.M.transpose, (a.M.transpose.apply a.p).neg⟩

/-- One KDL tree segment (an entry of `KDL::SegmentMap`): segment name,
parent segment name, whether its joint has type `KDL::Joint::None`, the name
of that joint, the dense joint number `q_nr` and the segment pose function
`KDL::Segment::pose` (external geometry: joint motion composed with the fixed
tip frame), evaluated at the joint angle. -/
structure Segment where
  name : String
  parentName : String
  jointIsNone : Bool
  jointName : String
  q_nr : ℕ
  poseFn : ℚ → Frame

/-- The KDL tree built by `kdl_parser::treeFromUrdfModel`: its segment map
(in map iteration order), the root segment name and `getNrOfJoints()`. -/
structure KinTree where
  segments : List Segment
  rootName : String
  nrJoints : ℕ

/-- `tree.getSegments().find(name)`: first segment with the given name. -/
def findSeg (t : KinTree) (n : String) : Option Segment :=
  t.segments.find? (fun sg => sg.name = n)

/-- `TreeFkSolverPos_recursive::recursiveFk`: the segment's own pose at its
joint angle, premultiplied by the parent's recursive frame unless the segment
is the root.  The fuel argument bounds the parent walk (the C++ recursion
terminates because a KDL tree is finite and acyclic); with fuel at least the
segment count the bound is never hit on a well-formed tree. -/
def recursiveFk (t : KinTree) (q : List ℚ) : ℕ → Segment → Frame
  | 0, _ => Frame.identity
  | fuel + 1, sg =>
    let currentFrame := sg.poseFn (q.getD sg.q_nr 0)
    if sg.name = t.rootName then currentFrame
    else
      match findSeg t sg.parentName with
      | none => currentFrame
      | some parent => Frame.mul (recursiveFk t q fuel parent) currentFrame

/-- `TreeFkSolverPos_recursive::JntToCart`: returns an error (`none`; the C++
returns a negative code and leaves the output frame untouched) when the joint
array's row count differs from the tree's joint count or when the segment
name is not in the tree, and otherwise the recursive forward kinematics. -/
def jntToCart (t : KinTree) (q : List ℚ) (segmentName : String) : Option Frame :=
  if q.length ≠ t.nrJoints then none
  else
    match findSeg t segmentName with
    | none => none
    | some sg => some (recursiveFk t q (t.segments.length + 1) sg)

/-- `urdf::Joint` type tag (`urdf_model` joint types). -/
inductive UrdfJointType
  | unknown
  | revolute
  | continuous
  | prismatic
  | floating
  | planar
  | fixed
deriving DecidableEq, Repr

/-- A joint of the parsed URDF model: name, type and the `limits` pointer
((lower, upper) when present, `none` when the pointer is null). -/
structure UrdfJoint where
  jname : String
  jtype : UrdfJointType
  limits : Option (ℚ × ℚ)
deriving DecidableEq, Repr

/-- A link of the parsed URDF model: name, parent link (`none` at the global
root) and whether `PartMeshModel` can load a proper mesh for it (the
`proper_` flag computed by the external mesh loader). -/
structure UrdfLink where
  lname : String
  parentLink : Option String
  properMesh : Bool
deriving DecidableEq, Repr

/-- The parsed robot description (`urdf::Model`): joints, links in
`getLinks` order, and the name of `getRoot()`. -/
structure UrdfModel where
  joints : List UrdfJoint
  links : List UrdfLink
  rootName : String
deriving DecidableEq, Repr

/-- `urdf::Model::getJoint`: first joint with the given name. -/
def UrdfModel.getJoint (u : UrdfModel) (n : String) : Option UrdfJoint :=
  u.joints.find? (fun j => j.jname = n)

/-- `urdf::Model` link lookup by name (following a link's parent pointer). -/
def UrdfModel.findLink (u : UrdfModel) (n : String) : Option UrdfLink :=
  u.links.find? (fun l => l.lname = n)

/-- State of a `KinematicsFromURDF` object.  `recomputations` is a ghost
counter of `ComputeLinkTransforms` runs (it models "the forward-kinematics
traversal was re-triggered"), not a C++ member. -/
structure KState where
  urdf : UrdfModel
  tree : KinTree
  description_path : String
  rendering_root_left : String
  rendering_root_right : String
  cam_frame_name : String
  joint_map : List String
  lower_limit : List ℚ
  upper_limit : List ℚ
  mesh_names : List String
  jnt_array : List ℚ
  cam_frame : Frame
  frame_map : List (String × Frame)
  recomputations : ℕ

/-- `KinematicsFromURDF::num_joints`: `kin_tree_.getNrOfJoints()`. -/
def num_joints (s : KState) : ℕ := s.tree.nrJoints

/-- `KinematicsFromURDF::num_links`: `mesh_names_.size()`. -/
def num_links (s : KState) : ℕ := s.mesh_names.length

/-- `KinematicsFromURDF::GetLinkName`: `mesh_names_[idx]`. -/
def GetLinkName (s : KState) (idx : ℕ) : String := s.mesh_names.getD idx ""

/-- Lookup in the `std::map<std::string, KDL::Frame>` `frame_map_`. -/
def mapLookup (m : List (String × Frame)) (k : String) : Option Frame :=
  match m with
  | [] => none
  | (k1, v) :: rest => if k1 = k then some v else mapLookup rest k

/-- Update-or-append for `frame_map_[k] = v` (the `std::map` subscript
assignment; the association list keeps one binding per key). -/
def mapInsert (m : List (String × Frame)) (k : String) (v : Frame) :
    List (String × Frame) :=
  match m with
  | [] => [(k, v)]
  | (k1, v1) :: rest =>
    if k1 = k then (k, v) :: rest else (k1, v1) :: mapInsert rest k v

/-- `std::map::operator[]` read: the stored frame, or — when the key is
absent — a default-inserted `KDL::Frame()` (identity), together with the map
after the possible insertion. -/
def mapGetOrInsert (m : List (String × Frame)) (k : String) :
    Frame × List (String × Frame) :=
  match mapLookup m k with
  | some f => (f, m)
  | none => (Frame.identity, m ++ [(k, Frame.identity)])

/-- Squared Euclidean norm of a coefficient vector. -/
def sqNormList (xs : List ℚ) : ℚ := (xs.map (fun x => x * x)).sum

/-- Eigen's `NumTraits<double>::dummy_precision()`, the default tolerance of
`isApprox`. -/
def dummy_precision : ℚ := 1 / 10 ^ 12

/-- Eigen `VectorXd::isApprox(other)` with the default precision `p`:
`(a - b).squaredNorm() <= p^2 * min(a.squaredNorm(), b.squaredNorm())`.
Eigen requires equal sizes (mismatched sizes assert); the embedding treats
mismatched lengths as not approximately equal. -/
def eigenIsApprox (a b : List ℚ) : Bool :=
  decide (a.length = b.length) &&
    decide (sqNormList (List.zipWith (fun x y => x - y) a b) ≤
      dummy_precision * dummy_precision * min (sqNormList a) (sqNormList b))

/-- `KinematicsFromURDF::ComputeLinkTransforms`: solve the camera frame from
the base (on solver error only a `ROS_ERROR` is logged and the member keeps
its previous value), store its inverse in `cam_frame_`, then for every
segment whose name is a tracked mesh name solve that link's frame (a solver
error leaves the local `KDL::Frame frame` default-initialised) and store
`cam_frame_ * frame` in `frame_map_`. -/
def ComputeLinkTransforms (s : KState) : KState :=
  let cam0 :=
    match jntToCart s.tree s.jnt_array s.cam_frame_name with
    | some f => f
    | none => s.cam_frame
  let cam := cam0.inverse
  let fm := s.tree.segments.foldl
    (fun m seg =>
      if s.mesh_names.contains seg.name then
        let fr :=
          match jntToCart s.tree s.jnt_array seg.name with
          | some f => f
          | none => Frame.identity
        mapInsert m seg.name (Frame.mul cam fr)
      else m)
    s.frame_map
  { s with cam_frame := cam, frame_map := fm,
           recomputations := s.recomputations + 1 }

/-- `KinematicsFromURDF::set_joint_angles`: when the cached KDL joint array
is empty (size zero) or not approximately equal to the new vector, store the
new vector and recompute all link transforms; otherwise do nothing. -/
def set_joint_angles (s : KState) (joint_state : List ℚ) : KState :=
  if s.jnt_array.length = 0 ∨ eigenIsApprox s.jnt_array joint_state = false then
    ComputeLinkTransforms { s with jnt_array := joint_state }
  else s

/-- `KinematicsFromURDF::get_link_position`: read (default-inserting via the
map subscript) `frame_map_[mesh_names_[idx]]` and return its translation.
The state after the possible default insertion is returned explicitly. -/
def get_link_position (s : KState) (idx : ℕ) : KState × Vec3 :=
  let name := s.mesh_names.getD idx ""
  let r := mapGetOrInsert s.frame_map name
  ({ s with frame_map := r.2 }, r.1.p)

/-- `KinematicsFromURDF::get_link_orientation`: read (default-inserting)
`frame_map_[mesh_names_[idx]]` and return its rotation.  The C++ converts the
rotation to a quaternion with `KDL::Rotation::GetQuaternion` (external
numeric code); the rotation itself is returned here — the identity rotation
corresponds to the identity quaternion (0, 0, 0, 1). -/
def get_link_orientation (s : KState) (idx : ℕ) : KState × Rot :=
  let name := s.mesh_names.getD idx ""
  let r := mapGetOrInsert s.frame_map name
  ({ s with frame_map := r.2 }, r.1.M)

/-- `KinematicsFromURDF::get_link_pose`: orientation lookup followed by
position lookup, assembled into a pose (rotation, translation). -/
def get_link_pose (s : KState) (idx : ℕ) : KState × (Rot × Vec3) :=
  let r1 := get_link_orientation s idx
  let r2 := get_link_position r1.1 idx
  (r2.1, (r1.2, r2.2))

/-- Abort causes of the constructor loop.  `jointNotFound` is the
`ROS_FATAL` + early-return path (the object is left without a tree solver —
unusable); `missingLimits` is the `joint->limits->lower` dereference of a
null `limits` pointer, which crashes. -/
inductive ConstructError
  | jointNotFound (jn : String)
  | missingLimits (jn : String)
deriving DecidableEq, Repr

/-- The constructor's segment loop (src lines 66-90): for every segment of
the KDL tree whose joint type is not `KDL::Joint::None`, look the joint up
in the URDF model; abort when it is absent; when its URDF type is neither
`UNKNOWN` nor `FIXED`, record its name and lower/upper limits at the dense
index `q_nr` (dereferencing the `limits` pointer, which aborts when null). -/
def constructLoop (u : UrdfModel) :
    List Segment → List String × List ℚ × List ℚ →
    Except ConstructError (List String × List ℚ × List ℚ)
  | [], acc => .ok acc
  | seg :: rest, (jm, lo, hi) =>
    if seg.jointIsNone then constructLoop u rest (jm, lo, hi)
    else
      match u.getJoint seg.jointName with
      | none => .error (.jointNotFound seg.jointName)
      | some j =>
        if j.jtype ≠ UrdfJointType.unknown ∧ j.jtype ≠ UrdfJointType.fixed then
          match j.limits with
          | none => .error (.missingLimits j.jname)
          | some lim =>
            constructLoop u rest
              (jm.set seg.q_nr j.jname, lo.set seg.q_nr lim.1,
               hi.set seg.q_nr lim.2)
        else constructLoop u rest (jm, lo, hi)

/-- The freshly constructed object state: configuration strings stored, the
maps filled by the segment loop, no tracked meshes yet, an empty (size-zero)
`KDL::JntArray`, default (identity) camera frame and empty pose map. -/
def mkState (u : UrdfModel) (t : KinTree)
    (pp lft rgt cam : String) (jm : List String) (lo hi : List ℚ) : KState :=
  { urdf := u
    tree := t
    description_path := pp
    rendering_root_left := lft
    rendering_root_right := rgt
    cam_frame_name := cam
    joint_map := jm
    lower_limit := lo
    upper_limit := hi
    mesh_names := []
    jnt_array := []
    cam_frame := Frame.identity
    frame_map := []
    recomputations := 0 }

/-- `KinematicsFromURDF::KinematicsFromURDF` after the external URDF/KDL
parsing steps: resize `joint_map_`, `lower_limit_` and `upper_limit_` to the
tree's joint count (value-initialised entries) and run the segment loop.
A loop abort yields an error — the unusable object of the C++ early return. -/
def construct (u : UrdfModel) (t : KinTree)
    (robot_description_package_path rendering_root_left rendering_root_right
      camera_frame_id : String) : Except ConstructError KState :=
  match constructLoop u t.segments
      (List.replicate t.nrJoints "", List.replicate t.nrJoints 0,
       List.replicate t.nrJoints 0) with
  | .error e => .error e
  | .ok acc =>
    .ok (mkState u t robot_description_package_path rendering_root_left
      rendering_root_right camera_frame_id acc.1 acc.2.1 acc.2.2)

/-- The linear scan of `KinematicsFromURDF::GetJointIndex`: index of the
first list entry equal to `name`, or `-1`. -/
def jointIndexGo (name : String) : List String → Int
  | [] => -1
  | n :: rest =>
    if n = name then 0
    else
      let r := jointIndexGo name rest
      if r = -1 then -1 else r + 1

/-- `KinematicsFromURDF::GetJointIndex`: first index `i` with
`joint_map_[i] == name`, else `-1`. -/
def GetJointIndex (s : KState) (name : String) : Int :=
  jointIndexGo name s.joint_map

/-- A joint-sensor observation (`sensor_msgs::JointState`): parallel name and
position arrays. -/
structure JointObs where
  name : List String
  position : List ℚ
deriving DecidableEq, Repr

/-- The loop body of `GetInitialJoints` applied to the (name, angle) pairs of
an observation: each pair whose `GetJointIndex` is non-negative writes its
angle at that index; a pair with index `-1` only logs a `ROS_ERROR`. -/
def applyPairs (s : KState) (pairs : List (String × ℚ)) (sample : List ℚ) :
    List ℚ :=
  pairs.foldl
    (fun smp p =>
      let tmp_index := GetJointIndex s p.1
      if 0 ≤ tmp_index then smp.set tmp_index.toNat p.2 else smp)
    sample

/-- Contents of length `n` for a freshly constructed `Eigen::VectorXd(n)`:
the vector is uninitialised, so the embedding takes the arbitrary memory
contents `xs` and shapes them to length `n`. -/
def uninitVec (n : ℕ) (xs : List ℚ) : List ℚ :=
  (xs ++ List.replicate n 0).take n

/-- `KinematicsFromURDF::GetInitialJoints`: allocate an uninitialised sample
vector of length `num_joints()`, write every observation field whose joint
name resolves to an index, and return the singleton sample list.  `mem0`
models the uninitialised memory the `Eigen::VectorXd` starts from. -/
def GetInitialJoints (s : KState) (angles : JointObs) (mem0 : List ℚ) :
    List (List ℚ) :=
  [applyPairs s (angles.name.zip angles.position)
    (uninitVec (num_joints s) mem0)]

/-- The observation restricted to the fields whose joint name is known
(index not `-1`); used to state that unknown names are dropped. -/
def filterKnown (s : KState) (angles : JointObs) : JointObs :=
  let ps := (angles.name.zip angles.position).filter
    (fun p => 0 ≤ GetJointIndex s p.1)
  ⟨ps.map Prod.fst, ps.map Prod.snd⟩

/-- `KinematicsFromURDF::GetJointOrder`: the joint index of every observation
name, in observation order. -/
def GetJointOrder (s : KState) (state : JointObs) : List Int :=
  state.name.map (fun n => GetJointIndex s n)

/-- `KinematicsFromURDF::GetRandomPertubation`: mean and standard deviation
are handed to a `boost::normal_distribution` draw — `sampled` models the
value that external Gaussian draw produced — and the draw is clipped to the
joint's `[lower_limit_, upper_limit_]` interval.  A valid `jnt_index` is
presumed by the C++ vector indexing. -/
def GetRandomPertubation (s : KState) (jnt_index : ℕ)
    (jnt_angle ratio sampled : ℚ) : ℚ :=
  let mean := jnt_angle
  let range := s.upper_limit.getD jnt_index 0 - s.lower_limit.getD jnt_index 0
  let std := ratio * range
  -- boost::normal_distribution<double> normal(mean, std); val = normal(generator_)
  let val0 := sampled
  let val1 :=
    if val0 > s.upper_limit.getD jnt_index 0 then s.upper_limit.getD jnt_index 0
    else val0
  let val2 :=
    if val1 < s.lower_limit.getD jnt_index 0 then s.lower_limit.getD jnt_index 0
    else val1
  val2

/-- The ancestor walk of `get_part_meshes` (src lines 112-117): while the
current link's name equals `rendering_root_left_` AND `rendering_root_right_`
AND the global root's name, step to the parent.  A null parent dereference
(walking past the global root) and a lookup failure yield `none`; the fuel
models the finite link chain. -/
def ancestorWalk (u : UrdfModel) (lft rgt glob : String) :
    ℕ → UrdfLink → Option UrdfLink
  | 0, _ => none
  | fuel + 1, l =>
    if l.lname = lft ∧ l.lname = rgt ∧ l.lname = glob then
      match l.parentLink with
      | none => none
      | some pn =>
        match u.findLink pn with
        | none => none
        | some parent => ancestorWalk u lft rgt glob fuel parent
    else some l

/-- The link loop of `get_part_meshes`: run the ancestor walk from each link;
skip the link when the walk ends at the global root; otherwise construct its
`PartMeshModel` and, when the mesh is proper (loadable), append the link to
the output part list and its name to `mesh_names_`.  `none` models a crash
inside the walk. -/
def partMeshLoop (u : UrdfModel) (lft rgt glob : String) :
    List UrdfLink → List String → List String →
    Option (List String × List String)
  | [], pm, mn => some (pm, mn)
  | l :: rest, pm, mn =>
    match ancestorWalk u lft rgt glob (u.links.length + 1) l with
    | none => none
    | some tmp =>
      if tmp.lname = glob then partMeshLoop u lft rgt glob rest pm mn
      else if l.properMesh then
        partMeshLoop u lft rgt glob rest (pm ++ [l.lname]) (mn ++ [l.lname])
      else partMeshLoop u lft rgt glob rest pm mn

/-- `KinematicsFromURDF::get_part_meshes`: iterate `urdf_.getLinks()`,
keeping (per the loop above) the proper-mesh links; returns the part list
(named by link, the `PartMeshModel` payload being external) and the state
with `mesh_names_` extended, or `none` when the ancestor walk crashes. -/
def get_part_meshes (s : KState) : Option (List String × KState) :=
  match partMeshLoop s.urdf s.rendering_root_left s.rendering_root_right
      s.urdf.rootName s.urdf.links [] s.mesh_names with
  | none => none
  | some r => some (r.1, { s with mesh_names := r.2 })

/-- Per-segment well-formedness delivered by `kdl_parser`: a segment whose
KDL joint is not `None` came from a non-fixed URDF joint, so when the URDF
lookup finds that joint its type is neither `FIXED` nor `UNKNOWN`. -/
def segConsistent (u : UrdfModel) (seg : Segment) : Bool :=
  seg.jointIsNone ||
    (match u.getJoint seg.jointName with
     | none => true
     | some j => decide (j.jtype ≠ UrdfJointType.fixed ∧
         j.jtype ≠ UrdfJointType.unknown))

/-- A segment on which the constructor loop aborts: its joint is not
`KDL::Joint::None` and either the URDF has no joint of that name, or the
joint is found movable but its `limits` pointer is null. -/
def segmentFails (u : UrdfModel) (seg : Segment) : Bool :=
  !seg.jointIsNone &&
    (match u.getJoint seg.jointName with
     | none => true
     | some j => decide (j.jtype ≠ UrdfJointType.unknown ∧
         j.jtype ≠ UrdfJointType.fixed) && j.limits.isNone)

/-! ### Concrete fixtures

A small robot used for witnesses and counterexamples: a fixed base (the KDL
root, joint type `None`) carrying one revolute joint `joint1` that translates
the mesh link `link1` by the joint angle along x (the segment pose function
abstracts the KDL geometry). -/

/-- Root segment of the fixture tree. -/
def rootSegA : Segment :=
  { name := "base", parentName := "", jointIsNone := true, jointName := "",
    q_nr := 0, poseFn := fun _ => Frame.identity }

/-- The single movable segment of the fixture tree. -/
def link1SegA : Segment :=
  { name := "link1", parentName := "base", jointIsNone := false,
    jointName := "joint1", q_nr := 0,
    poseFn := fun q => ⟨Rot.identity, ⟨q, 0, 0⟩⟩ }

/-- Fixture KDL tree with one joint. -/
def treeA : KinTree :=
  { segments := [rootSegA, link1SegA], rootName := "base", nrJoints := 1 }

/-- Fixture URDF model matching `treeA`. -/
def urdfA : UrdfModel :=
  { joints := [⟨"joint1", UrdfJointType.revolute, some (-3, 3)⟩],
    links := [⟨"base", none, false⟩, ⟨"link1", some "base", true⟩],
    rootName := "base" }

/-- Fixture tracker state over `treeA`/`urdfA` with `link1` tracked, before
any `set_joint_angles` call. -/
def stateA : KState :=
  { urdf := urdfA, tree := treeA, description_path := "",
    rendering_root_left := "L", rendering_root_right := "R",
    cam_frame_name := "base", joint_map := ["joint1"],
    lower_limit := [-3], upper_limit := [3], mesh_names := ["link1"],
    jnt_array := [], cam_frame := Frame.identity, frame_map := [],
    recomputations := 0 }

/-- `stateA` after a first `set_joint_angles` with angle 1. -/
def stateA1 : KState := set_joint_angles stateA [1]

/-- A vector approximately equal (Eigen default tolerance) but not equal to
the cached `[1]`. -/
def qNear1 : List ℚ := [1 + 1 / 10 ^ 13]

/-- `stateA1` after a second call with the approximately equal vector. -/
def stateA2 : KState := set_joint_angles stateA1 qNear1

/-- A zero-joint robot: a KDL tree holding only its root. -/
def tree0 : KinTree := { segments := [rootSegA], rootName := "base", nrJoints := 0 }

/-- Tracker state for the zero-joint robot. -/
def state0 : KState :=
  { urdf := { joints := [], links := [⟨"base", none, false⟩], rootName := "base" },
    tree := tree0, description_path := "", rendering_root_left := "L",
    rendering_root_right := "R", cam_frame_name := "base", joint_map := [],
    lower_limit := [], upper_limit := [], mesh_names := [], jnt_array := [],
    cam_frame := Frame.identity, frame_map := [], recomputations := 0 }

/-- The zero-joint state after a first call with the empty angle vector. -/
def state0After : KState := set_joint_angles state0 []

/-- Degenerate rendering configuration: both rendering roots equal the
global root's name, over a URDF whose only link is the root. -/
def stateRootsEqRoot : KState :=
  { urdf := { joints := [], links := [⟨"base", none, true⟩], rootName := "base" },
    tree := tree0, description_path := "", rendering_root_left := "base",
    rendering_root_right := "base", cam_frame_name := "base", joint_map := [],
    lower_limit := [], upper_limit := [], mesh_names := [], jnt_array := [],
    cam_frame := Frame.identity, frame_map := [], recomputations := 0 }

/-- A two-joint state used for the observation-processing claims. -/
def stateB : KState :=
  { urdf := urdfA, tree := { segments := [rootSegA], rootName := "base", nrJoints := 2 },
    description_path := "", rendering_root_left := "L",
    rendering_root_right := "R", cam_frame_name := "base",
    joint_map := ["j0", "j1"], lower_limit := [-1, -1], upper_limit := [1, 1],
    mesh_names := [], jnt_array := [], cam_frame := Frame.identity,
    frame_map := [], recomputations := 0 }

/-- An observation repeating the known name `j0` with two different angles. -/
def obsDup : JointObs := { name := ["j0", "j0"], position := [1, 2] }

/-- An observation with one unknown name between two known fields. -/
def obsMixed : JointObs := { name := ["j0", "ghost", "j1"], position := [5, 7, 9] }

/-- An observation with distinct known names only. -/
def obsDistinct : JointObs := { name := ["j1", "j0"], position := [4, 6] }

/-- The links `get_part_meshes` keeps: every URDF link with a proper
(loadable) mesh whose own name differs from the global root's name — a
formula that does not mention the configured rendering roots. -/
def keptMeshNames (u : UrdfModel) : List String :=
  (u.links.filter
    (fun l => !(decide (l.lname = u.rootName)) && l.properMesh)).map
    (fun l => l.lname)

/-! ### Theorems -/

theorem mapLookup_mapInsert_self (m : List (String × Frame)) (k : String)
    (v : Frame) : mapLookup (mapInsert m k v) k = some v := by
  induction m with
  | nil => simp [mapInsert, mapLookup]
  | cons p rest ih =>
    obtain ⟨k1, v1⟩ := p
    by_cases h : k1 = k
    · simp [mapInsert, mapLookup, h]
    · simp [mapInsert, mapLookup, h, ih]

theorem mapLookup_mapInsert_ne (m : List (String × Frame)) (k k2 : String)
    (v : Frame) (h : k ≠ k2) :
    mapLookup (mapInsert m k v) k2 = mapLookup m k2 := by
  induction m with
  | nil => simp [mapInsert, mapLookup, h]
  | cons p rest ih =>
    obtain ⟨k1, v1⟩ := p
    by_cases h1 : k1 = k
    · subst h1
      simp [mapInsert, mapLookup, h]
    · simp [mapInsert, mapLookup, h1, ih]

/-- The pose-map fold of `ComputeLinkTransforms` leaves keys alone that name
no processed segment. -/
theorem foldl_insert_lookup_not_mem (mesh : List String) (val : String → Frame) :
    ∀ (segs : List Segment) (acc : List (String × Frame)) (n : String),
      (∀ sg ∈ segs, sg.name ≠ n) →
      mapLookup (segs.foldl (fun m seg =>
        if mesh.contains seg.name then mapInsert m seg.name (val seg.name)
        else m) acc) n = mapLookup acc n := by
  intro segs
  induction segs with
  | nil => intro acc n _; rfl
  | cons sg rest ih =>
    intro acc n h
    have hsg : sg.name ≠ n := h sg (List.mem_cons_self sg rest)
    have hrest : ∀ sg2 ∈ rest, sg2.name ≠ n :=
      fun sg2 h2 => h sg2 (List.mem_cons_of_mem sg h2)
    rw [List.foldl_cons, ih _ n hrest]
    by_cases hc : mesh.contains sg.name
    · rw [if_pos hc, mapLookup_mapInsert_ne _ _ _ _ hsg]
    · rw [if_neg hc]

/-- Any key that names a processed segment and is a tracked mesh name ends
up bound to the inserted value of that name (which depends on the name
only). -/
theorem foldl_insert_lookup_mem (mesh : List String) (val : String → Frame) :
    ∀ (segs : List Segment) (acc : List (String × Frame)) (n : String),
      mesh.contains n = true → (∃ sg ∈ segs, sg.name = n) →
      mapLookup (segs.foldl (fun m seg =>
        if mesh.contains seg.name then mapInsert m seg.name (val seg.name)
        else m) acc) n = some (val n) := by
  intro segs
  induction segs with
  | nil =>
    rintro acc n _ ⟨sg, hsg, _⟩
    exact absurd hsg (List.not_mem_nil sg)
  | cons sg rest ih =>
    intro acc n hc hex
    by_cases hrest : ∃ sg2 ∈ rest, sg2.name = n
    · rw [List.foldl_cons]
      exact ih _ n hc hrest
    · have hname : sg.name = n := by
        obtain ⟨sg0, hmem, hn0⟩ := hex
        rcases List.mem_cons.mp hmem with h0 | h0
        · rw [← h0]; exact hn0
        · exact absurd ⟨sg0, h0, hn0⟩ hrest
      have hnames : ∀ sg2 ∈ rest, sg2.name ≠ n :=
        fun sg2 h2 heq => hrest ⟨sg2, h2, heq⟩
      rw [List.foldl_cons,
        foldl_insert_lookup_not_mem mesh val rest _ n hnames, hname,
        if_pos hc, mapLookup_mapInsert_self]

theorem jointIndexGo_neg_or_nonneg (nm : String) :
    ∀ l : List String, jointIndexGo nm l = -1 ∨ 0 ≤ jointIndexGo nm l := by
  intro l
  induction l with
  | nil => left; rfl
  | cons a rest ih =>
    by_cases ha : a = nm
    · right
      simp [jointIndexGo, ha]
    · rcases ih with h | h
      · left
        simp [jointIndexGo, ha, h]
      · by_cases hm1 : jointIndexGo nm rest = -1
        · left
          simp [jointIndexGo, ha, hm1]
        · right
          simp only [jointIndexGo, if_neg ha, if_neg hm1]
          omega

theorem jointIndexGo_eq_neg_one_iff (nm : String) :
    ∀ l : List String, jointIndexGo nm l = -1 ↔ nm ∉ l := by
  intro l
  induction l with
  | nil => simp [jointIndexGo]
  | cons a rest ih =>
    rw [List.mem_cons]
    by_cases ha : a = nm
    · simp only [jointIndexGo, if_pos ha]
      constructor
      · intro h
        exact absurd h (by decide)
      · intro h
        exact absurd (Or.inl ha.symm) h
    · by_cases hm1 : jointIndexGo nm rest = -1
      · simp only [jointIndexGo, if_neg ha, if_pos hm1]
        constructor
        · intro _
          rintro (h1 | h2)
          · exact ha h1.symm
          · exact (ih.mp hm1) h2
        · intro _
          trivial
      · simp only [jointIndexGo, if_neg ha, if_neg hm1]
        rcases jointIndexGo_neg_or_nonneg nm rest with h | h
        · exact absurd h hm1
        · have hmem : nm ∈ rest := not_not.mp (fun hmem => hm1 (ih.mpr hmem))
          constructor
          · intro hh
            exact absurd hh (by omega)
          · intro hh
            exact absurd (Or.inr hmem) hh

theorem jointIndexGo_spec (nm : String) :
    ∀ (l : List String) (i : ℕ), jointIndexGo nm l = (i : Int) →
      i < l.length ∧ l.getD i "" = nm ∧ ∀ j < i, l.getD j "" ≠ nm := by
  intro l
  induction l with
  | nil =>
    intro i h
    have h2 : (-1 : Int) = (i : Int) := h
    omega
  | cons a rest ih =>
    intro i h
    by_cases ha : a = nm
    · have h0 : (0 : Int) = (i : Int) := by simpa [jointIndexGo, ha] using h
      have hi0 : i = 0 := by omega
      subst hi0
      exact ⟨by simp, by simpa using ha, fun j hj => absurd hj (Nat.not_lt_zero j)⟩
    · rcases jointIndexGo_neg_or_nonneg nm rest with hr | hr
      · have hneg : jointIndexGo nm (a :: rest) = -1 := by
          simp [jointIndexGo, ha, hr]
        rw [hneg] at h
        exact absurd h (by omega)
      · have hne : jointIndexGo nm rest ≠ -1 := by omega
        have hstep : jointIndexGo nm (a :: rest) = jointIndexGo nm rest + 1 := by
          simp [jointIndexGo, ha, hne]
        rw [hstep] at h
        obtain ⟨k, hk⟩ : ∃ k : ℕ, jointIndexGo nm rest = (k : Int) :=
          ⟨(jointIndexGo nm rest).toNat, by omega⟩
        rw [hk] at h
        have hik : i = k + 1 := by omega
        subst hik
        obtain ⟨h1, h2, h3⟩ := ih k hk
        refine ⟨by simpa using Nat.succ_lt_succ h1, by simpa using h2, ?_⟩
        intro j hj
        cases j with
        | zero => simpa using ha
        | succ j2 =>
          have := h3 j2 (by omega)
          simpa using this

theorem jointIndexGo_of_mem (nm : String) (l : List String) (h : nm ∈ l) :
    ∃ i : ℕ, jointIndexGo nm l = (i : Int) := by
  have hne : jointIndexGo nm l ≠ -1 :=
    fun hh => absurd h ((jointIndexGo_eq_neg_one_iff nm l).mp hh)
  rcases jointIndexGo_neg_or_nonneg nm l with h1 | h1
  · exact absurd h1 hne
  · exact ⟨(jointIndexGo nm l).toNat, by omega⟩

theorem jointIndexGo_inj (n1 n2 : String) (l : List String) (i : ℕ)
    (h1 : jointIndexGo n1 l = (i : Int)) (h2 : jointIndexGo n2 l = (i : Int)) :
    n1 = n2 := by
  obtain ⟨_, e1, _⟩ := jointIndexGo_spec n1 l i h1
  obtain ⟨_, e2, _⟩ := jointIndexGo_spec n2 l i h2
  rw [← e1, e2]

theorem listSet_getD_self {α : Type} (l : List α) (i : ℕ) (a d : α)
    (h : i < l.length) :
    (l.set i a).getD i d = a := by
  induction l generalizing i with
  | nil => simp at h
  | cons x rest ih =>
    cases i with
    | zero => simp
    | succ i2 =>
      have : i2 < rest.length := by simpa using h
      simpa using ih i2 this

theorem listSet_getD_ne {α : Type} (l : List α) (i j : ℕ) (a d : α)
    (h : i ≠ j) :
    (l.set i a).getD j d = l.getD j d := by
  induction l generalizing i j with
  | nil => simp
  | cons x rest ih =>
    cases i with
    | zero =>
      cases j with
      | zero => exact absurd rfl h
      | succ j2 => simp
    | succ i2 =>
      cases j with
      | zero => simp
      | succ j2 => simpa using ih i2 j2 (by omega)

theorem applyPairs_cons (s : KState) (p : String × ℚ)
    (rest : List (String × ℚ)) (smp : List ℚ) :
    applyPairs s (p :: rest) smp =
      applyPairs s rest
        (if 0 ≤ GetJointIndex s p.1 then
          smp.set (GetJointIndex s p.1).toNat p.2
         else smp) := rfl

theorem applyPairs_length (s : KState) (pairs : List (String × ℚ)) :
    ∀ smp : List ℚ, (applyPairs s pairs smp).length = smp.length := by
  induction pairs with
  | nil => intro smp; rfl
  | cons p rest ih =>
    intro smp
    rw [applyPairs_cons, ih]
    split_ifs
    · exact List.length_set smp _ _
    · rfl

theorem applyPairs_getD_untouched (s : KState) (i : ℕ) :
    ∀ (pairs : List (String × ℚ)) (smp : List ℚ),
      (∀ p ∈ pairs, GetJointIndex s p.1 ≠ (i : Int)) →
      (applyPairs s pairs smp).getD i 0 = smp.getD i 0 := by
  intro pairs
  induction pairs with
  | nil => intro smp _; rfl
  | cons p rest ih =>
    intro smp h
    rw [applyPairs_cons,
      ih _ (fun p2 h2 => h p2 (List.mem_cons_of_mem p h2))]
    split_ifs with hge
    · have hne : (GetJointIndex s p.1).toNat ≠ i := by
        have := h p (List.mem_cons_self p rest)
        omega
      exact listSet_getD_ne smp _ i p.2 0 hne
    · rfl

theorem applyPairs_roundtrip (s : KState) :
    ∀ (pairs : List (String × ℚ)) (smp : List ℚ),
      (pairs.map Prod.fst).Nodup →
      (∀ p ∈ pairs, p.1 ∈ s.joint_map) →
      s.joint_map.length = smp.length →
      ∀ p ∈ pairs, ∃ i : ℕ, GetJointIndex s p.1 = (i : Int) ∧
        (applyPairs s pairs smp).getD i 0 = p.2 := by
  intro pairs
  induction pairs with
  | nil =>
    intro smp _ _ _ p hp
    exact absurd hp (List.not_mem_nil p)
  | cons q rest ih =>
    intro smp hnd hkn hlen p hp
    have hnd1 : q.1 ∉ rest.map Prod.fst := (List.nodup_cons.mp (by simpa using hnd)).1
    have hnd2 : (rest.map Prod.fst).Nodup := (List.nodup_cons.mp (by simpa using hnd)).2
    rcases List.mem_cons.mp hp with hq | hq
    · subst hq
      obtain ⟨i, hi⟩ :=
        jointIndexGo_of_mem p.1 s.joint_map (hkn p (List.mem_cons_self p rest))
      have hi2 : GetJointIndex s p.1 = (i : Int) := hi
      refine ⟨i, hi2, ?_⟩
      rw [applyPairs_cons]
      have hrest_ne : ∀ p2 ∈ rest, GetJointIndex s p2.1 ≠ (i : Int) := by
        intro p2 h2 heq
        have he : p2.1 = p.1 := jointIndexGo_inj p2.1 p.1 s.joint_map i heq hi
        exact hnd1 (he ▸ List.mem_map_of_mem Prod.fst h2)
      rw [applyPairs_getD_untouched s i rest _ hrest_ne]
      have hge : 0 ≤ GetJointIndex s p.1 := by rw [hi2]; omega
      rw [if_pos hge]
      have htn : (GetJointIndex s p.1).toNat = i := by rw [hi2]; rfl
      rw [htn]
      obtain ⟨hlt, _, _⟩ := jointIndexGo_spec p.1 s.joint_map i hi
      exact listSet_getD_self smp i p.2 0 (by omega)
    · rw [applyPairs_cons]
      have hlen2 : s.joint_map.length =
          (if 0 ≤ GetJointIndex s q.1 then
            smp.set (GetJointIndex s q.1).toNat q.2
           else smp).length := by
        split_ifs
        · rw [List.length_set]; exact hlen
        · exact hlen
      exact ih _ hnd2 (fun p2 h2 => hkn p2 (List.mem_cons_of_mem q h2)) hlen2 p hq

theorem applyPairs_append (s : KState) (l1 l2 : List (String × ℚ))
    (smp : List ℚ) :
    applyPairs s (l1 ++ l2) smp = applyPairs s l2 (applyPairs s l1 smp) :=
  List.foldl_append _ _ _ _

theorem applyPairs_filter (s : KState) :
    ∀ (pairs : List (String × ℚ)) (smp : List ℚ),
      applyPairs s pairs smp =
        applyPairs s (pairs.filter (fun p => 0 ≤ GetJointIndex s p.1)) smp := by
  intro pairs
  induction pairs with
  | nil => intro smp; rfl
  | cons p rest ih =>
    intro smp
    by_cases h : 0 ≤ GetJointIndex s p.1
    · rw [applyPairs_cons,
        List.filter_cons_of_pos (by simpa using h),
        applyPairs_cons, if_pos h, ih]
    · rw [applyPairs_cons, if_neg h,
        List.filter_cons_of_neg (by simpa using h), ih]

theorem zip_map_fst_snd {α β : Type} (l : List (α × β)) :
    (l.map Prod.fst).zip (l.map Prod.snd) = l := by
  induction l with
  | nil => rfl
  | cons p rest ih => simp [ih]

theorem uninitVec_length (n : ℕ) (xs : List ℚ) : (uninitVec n xs).length = n := by
  simp [uninitVec]

theorem constructLoop_error (u : UrdfModel) :
    ∀ (segs : List Segment) (jm : List String) (lo hi : List ℚ),
      (∃ seg ∈ segs, segmentFails u seg = true) →
      ∃ e, constructLoop u segs (jm, lo, hi) = Except.error e := by
  intro segs
  induction segs with
  | nil =>
    rintro jm lo hi ⟨seg, hm, _⟩
    exact absurd hm (List.not_mem_nil seg)
  | cons seg rest ih =>
    rintro jm lo hi ⟨sg0, hm, hf⟩
    by_cases hnone : seg.jointIsNone
    · have hsg0 : sg0 ∈ rest := by
        rcases List.mem_cons.mp hm with h | h
        · subst h
          simp [segmentFails, hnone] at hf
        · exact h
      obtain ⟨e, he⟩ := ih jm lo hi ⟨sg0, hsg0, hf⟩
      refine ⟨e, ?_⟩
      simp only [constructLoop]
      rw [if_pos hnone]
      exact he
    · have hnone2 : seg.jointIsNone = false := by
        cases hb : seg.jointIsNone
        · rfl
        · exact absurd hb hnone
      cases hj : u.getJoint seg.jointName with
      | none =>
        refine ⟨ConstructError.jointNotFound seg.jointName, ?_⟩
        simp only [constructLoop]
        rw [if_neg hnone]
        simp only [hj]
      | some j =>
        by_cases hmv : j.jtype ≠ UrdfJointType.unknown ∧
            j.jtype ≠ UrdfJointType.fixed
        · cases hlim : j.limits with
          | none =>
            refine ⟨ConstructError.missingLimits j.jname, ?_⟩
            simp only [constructLoop]
            rw [if_neg hnone]
            simp only [hj]
            rw [if_pos hmv]
            simp only [hlim]
          | some lim =>
            have hhead : segmentFails u seg = false := by
              simp [segmentFails, hnone2, hj, hlim]
            have hsg0 : sg0 ∈ rest := by
              rcases List.mem_cons.mp hm with h | h
              · subst h
                rw [hhead] at hf
                cases hf
              · exact h
            obtain ⟨e, he⟩ := ih _ _ _ ⟨sg0, hsg0, hf⟩
            refine ⟨e, ?_⟩
            simp only [constructLoop]
            rw [if_neg hnone]
            simp only [hj]
            rw [if_pos hmv]
            simp only [hlim]
            exact he
        · have hhead : segmentFails u seg = false := by
            simp only [segmentFails, hj]
            rw [decide_eq_false hmv]
            simp
          have hsg0 : sg0 ∈ rest := by
            rcases List.mem_cons.mp hm with h | h
            · subst h
              rw [hhead] at hf
              cases hf
            · exact h
          obtain ⟨e, he⟩ := ih jm lo hi ⟨sg0, hsg0, hf⟩
          refine ⟨e, ?_⟩
          simp only [constructLoop]
          rw [if_neg hnone]
          simp only [hj]
          rw [if_neg hmv]
          exact he

theorem constructLoop_ok (u : UrdfModel) :
    ∀ (segs : List Segment) (jm : List String) (lo hi : List ℚ) (N : ℕ),
      (∀ seg ∈ segs, segConsistent u seg = true) →
      (∀ seg ∈ segs, segmentFails u seg = false) →
      ((segs.filter (fun sg => !sg.jointIsNone)).map (fun sg => sg.q_nr)).Nodup →
      (∀ seg ∈ segs, seg.jointIsNone = false → seg.q_nr < N) →
      jm.length = N → lo.length = N → hi.length = N →
      ∃ jm2 lo2 hi2,
        constructLoop u segs (jm, lo, hi) = Except.ok (jm2, lo2, hi2) ∧
        jm2.length = N ∧ lo2.length = N ∧ hi2.length = N ∧
        (∀ seg ∈ segs, seg.jointIsNone = false →
          ∃ j lim, u.getJoint seg.jointName = some j ∧ j.limits = some lim ∧
            jm2.getD seg.q_nr "" = j.jname ∧ lo2.getD seg.q_nr 0 = lim.1 ∧
            hi2.getD seg.q_nr 0 = lim.2) ∧
        (∀ i : ℕ, (∀ seg ∈ segs, seg.jointIsNone = false → seg.q_nr ≠ i) →
          jm2.getD i "" = jm.getD i "" ∧ lo2.getD i 0 = lo.getD i 0 ∧
            hi2.getD i 0 = hi.getD i 0) := by
  intro segs
  induction segs with
  | nil =>
    intro jm lo hi N _ _ _ _ h1 h2 h3
    exact ⟨jm, lo, hi, rfl, h1, h2, h3,
      fun seg hm => absurd hm (List.not_mem_nil seg),
      fun i _ => ⟨rfl, rfl, rfl⟩⟩
  | cons seg rest ih =>
    intro jm lo hi N hcons hfail hnd hrange hjm hlo hhi
    have hconsr : ∀ sg ∈ rest, segConsistent u sg = true :=
      fun sg h => hcons sg (List.mem_cons_of_mem seg h)
    have hfailr : ∀ sg ∈ rest, segmentFails u sg = false :=
      fun sg h => hfail sg (List.mem_cons_of_mem seg h)
    have hranger : ∀ sg ∈ rest, sg.jointIsNone = false → sg.q_nr < N :=
      fun sg h => hrange sg (List.mem_cons_of_mem seg h)
    by_cases hnone : seg.jointIsNone
    · have hfc : (seg :: rest).filter (fun sg => !sg.jointIsNone) =
          rest.filter (fun sg => !sg.jointIsNone) :=
        List.filter_cons_of_neg (by simp [hnone])
      have hndr : ((rest.filter (fun sg => !sg.jointIsNone)).map
          (fun sg => sg.q_nr)).Nodup := by
        rwa [hfc] at hnd
      obtain ⟨jm2, lo2, hi2, heq, hl1, hl2, hl3, hrec, hunt⟩ :=
        ih jm lo hi N hconsr hfailr hndr hranger hjm hlo hhi
      refine ⟨jm2, lo2, hi2, ?_, hl1, hl2, hl3, ?_, ?_⟩
      · simp only [constructLoop]
        rw [if_pos hnone]
        exact heq
      · intro sg hm hsg
        rcases List.mem_cons.mp hm with h | h
        · subst h
          rw [hnone] at hsg
          cases hsg
        · exact hrec sg h hsg
      · intro i hi0
        exact hunt i (fun sg h hsg => hi0 sg (List.mem_cons_of_mem seg h) hsg)
    · have hnone2 : seg.jointIsNone = false := by
        cases hb : seg.jointIsNone
        · rfl
        · exact absurd hb hnone
      have hf0 := hfail seg (List.mem_cons_self seg rest)
      cases hj : u.getJoint seg.jointName with
      | none =>
        exfalso
        have htrue : segmentFails u seg = true := by
          simp [segmentFails, hnone2, hj]
        rw [hf0] at htrue
        cases htrue
      | some j =>
        have hc0 := hcons seg (List.mem_cons_self seg rest)
        have hmv0 : j.jtype ≠ UrdfJointType.fixed ∧
            j.jtype ≠ UrdfJointType.unknown := by
          simpa [segConsistent, hnone2, hj] using hc0
        have hmv : j.jtype ≠ UrdfJointType.unknown ∧
            j.jtype ≠ UrdfJointType.fixed := ⟨hmv0.2, hmv0.1⟩
        cases hlim : j.limits with
        | none =>
          exfalso
          have htrue : segmentFails u seg = true := by
            simp only [segmentFails, hnone2, hj, hlim]
            rw [decide_eq_true hmv]
            simp
          rw [hf0] at htrue
          cases htrue
        | some lim =>
          have hfc : (seg :: rest).filter (fun sg => !sg.jointIsNone) =
              seg :: rest.filter (fun sg => !sg.jointIsNone) :=
            List.filter_cons_of_pos (by simp [hnone2])
          have hnd2 := hnd
          rw [hfc, List.map_cons, List.nodup_cons] at hnd2
          obtain ⟨hnotin, hndr⟩ := hnd2
          obtain ⟨jm2, lo2, hi2, heq, hl1, hl2, hl3, hrec, hunt⟩ :=
            ih (jm.set seg.q_nr j.jname) (lo.set seg.q_nr lim.1)
              (hi.set seg.q_nr lim.2) N hconsr hfailr hndr hranger
              (by rw [List.length_set]; exact hjm)
              (by rw [List.length_set]; exact hlo)
              (by rw [List.length_set]; exact hhi)
          have hq_lt : seg.q_nr < N :=
            hrange seg (List.mem_cons_self seg rest) hnone2
          have hothers : ∀ sg ∈ rest, sg.jointIsNone = false →
              sg.q_nr ≠ seg.q_nr := by
            intro sg h hsg heq2
            apply hnotin
            rw [← heq2]
            exact List.mem_map_of_mem _
              (List.mem_filter.mpr ⟨h, by simp [hsg]⟩)
          refine ⟨jm2, lo2, hi2, ?_, hl1, hl2, hl3, ?_, ?_⟩
          · simp only [constructLoop]
            rw [if_neg hnone]
            simp only [hj]
            rw [if_pos hmv]
            simp only [hlim]
            exact heq
          · intro sg hm hsg
            rcases List.mem_cons.mp hm with h | h
            · subst h
              obtain ⟨e1, e2, e3⟩ := hunt sg.q_nr hothers
              refine ⟨j, lim, hj, hlim, ?_, ?_, ?_⟩
              · rw [e1, listSet_getD_self jm sg.q_nr j.jname "" (by omega)]
              · rw [e2, listSet_getD_self lo sg.q_nr lim.1 0 (by omega)]
              · rw [e3, listSet_getD_self hi sg.q_nr lim.2 0 (by omega)]
            · exact hrec sg h hsg
          · intro i hi0
            have hqi : seg.q_nr ≠ i :=
              hi0 seg (List.mem_cons_self seg rest) hnone2
            obtain ⟨e1, e2, e3⟩ := hunt i
              (fun sg h hsg => hi0 sg (List.mem_cons_of_mem seg h) hsg)
            refine ⟨?_, ?_, ?_⟩
            · rw [e1, listSet_getD_ne jm seg.q_nr i j.jname "" hqi]
            · rw [e2, listSet_getD_ne lo seg.q_nr i lim.1 0 hqi]
            · rw [e3, listSet_getD_ne hi seg.q_nr i lim.2 0 hqi]

/-- C4: under the `kdl_parser` well-formedness conditions (non-`None`
segments reference non-fixed URDF joints, densely and injectively numbered
below the tree's joint count), construction fails — the `ROS_FATAL`
early-return, or the crash on a null `limits` pointer — exactly on a segment
whose joint is missing or limit-less; otherwise it succeeds and records each
such joint's name and lower/upper limits at its dense index `q_nr`. -/
theorem construct_checks_joints (u : UrdfModel) (t : KinTree)
    (pp lft rgt cam : String)
    (hcons : ∀ seg ∈ t.segments, segConsistent u seg = true)
    (hinj : ((t.segments.filter (fun sg => !sg.jointIsNone)).map
      (fun sg => sg.q_nr)).Nodup)
    (hrange : ∀ seg ∈ t.segments, seg.jointIsNone = false →
      seg.q_nr < t.nrJoints) :
    ((∃ seg ∈ t.segments, segmentFails u seg = true) →
      ∃ e, construct u t pp lft rgt cam = Except.error e) ∧
    ((∀ seg ∈ t.segments, segmentFails u seg = false) →
      ∃ st, construct u t pp lft rgt cam = Except.ok st ∧
        ∀ seg ∈ t.segments, seg.jointIsNone = false →
          ∃ j lim, u.getJoint seg.jointName = some j ∧ j.limits = some lim ∧
            st.joint_map.getD seg.q_nr "" = j.jname ∧
            st.lower_limit.getD seg.q_nr 0 = lim.1 ∧
            st.upper_limit.getD seg.q_nr 0 = lim.2) := by
  constructor
  · intro hex
    obtain ⟨e, he⟩ := constructLoop_error u t.segments
      (List.replicate t.nrJoints "") (List.replicate t.nrJoints 0)
      (List.replicate t.nrJoints 0) hex
    refine ⟨e, ?_⟩
    unfold construct
    rw [he]
  · intro hok
    obtain ⟨jm2, lo2, hi2, heq, _, _, _, hrec, _⟩ :=
      constructLoop_ok u t.segments
        (List.replicate t.nrJoints "") (List.replicate t.nrJoints 0)
        (List.replicate t.nrJoints 0) t.nrJoints hcons hok hinj hrange
        (List.length_replicate _ _) (List.length_replicate _ _)
        (List.length_replicate _ _)
    refine ⟨mkState u t pp lft rgt cam jm2 lo2 hi2, ?_, ?_⟩
    · unfold construct
      rw [heq]
    · intro seg hm hsg
      exact hrec seg hm hsg

/-- C4 witness: the fixture URDF/tree constructs successfully and records
`joint1` with limits [-3, 3] at dense index 0. -/
theorem construct_checks_joints_witness :
    (∀ seg ∈ treeA.segments, segmentFails urdfA seg = false) ∧
    (∃ st, construct urdfA treeA "" "L" "R" "base" = Except.ok st ∧
      ∀ seg ∈ treeA.segments, seg.jointIsNone = false →
        ∃ j lim, urdfA.getJoint seg.jointName = some j ∧
          j.limits = some lim ∧
          st.joint_map.getD seg.q_nr "" = j.jname ∧
          st.lower_limit.getD seg.q_nr 0 = lim.1 ∧
          st.upper_limit.getD seg.q_nr 0 = lim.2) :=
  ⟨by decide,
   (construct_checks_joints urdfA treeA "" "L" "R" "base" (by decide)
     (by decide) (by decide)).2 (by decide)⟩

/-- C7: every angle vector produced by `GetInitialJoints` has length exactly
`num_joints()`, for every observation (however partial, with any unknown
names) and any initial memory contents — the length is fixed when the vector
is created and index writes never change it. -/
theorem getInitialJoints_length (s : KState) (angles : JointObs)
    (mem0 : List ℚ) (v : List ℚ) (hv : v ∈ GetInitialJoints s angles mem0) :
    v.length = num_joints s := by
  have hv2 : v = applyPairs s (angles.name.zip angles.position)
      (uninitVec (num_joints s) mem0) := by
    simpa [GetInitialJoints] using hv
  rw [hv2, applyPairs_length, uninitVec_length]

/-- C7 witness: the vector built from a partial observation with an unknown
name still has the topology's joint count (2). -/
theorem getInitialJoints_length_witness :
    ((GetInitialJoints stateB obsMixed []).headD []) ∈
      GetInitialJoints stateB obsMixed [] ∧
    ((GetInitialJoints stateB obsMixed []).headD []).length = num_joints stateB :=
  ⟨by decide,
   getInitialJoints_length stateB obsMixed []
     ((GetInitialJoints stateB obsMixed []).headD []) (by decide)⟩

/-- C6: (round trip) for an observation whose names are pairwise distinct
and all present in the topology, the produced vector holds each observed
angle at `GetJointIndex` of its name; and `GetJointIndex` returns the unique
smallest index of the name in `joint_map_`, or `-1` exactly when the name is
absent. -/
theorem getInitialJoints_roundtrip (s : KState) (o : JointObs) (mem0 : List ℚ)
    (hlen : o.name.length = o.position.length)
    (hnd : o.name.Nodup)
    (hknown : ∀ nm ∈ o.name, nm ∈ s.joint_map)
    (hwf : s.joint_map.length = num_joints s) :
    (∀ p ∈ o.name.zip o.position,
      ∃ i : ℕ, GetJointIndex s p.1 = (i : Int) ∧
        ((GetInitialJoints s o mem0).headD []).getD i 0 = p.2) ∧
    (∀ nm : String,
      (GetJointIndex s nm = -1 ↔ nm ∉ s.joint_map) ∧
      (∀ i : ℕ, GetJointIndex s nm = (i : Int) →
        i < s.joint_map.length ∧ s.joint_map.getD i "" = nm ∧
          ∀ j < i, s.joint_map.getD j "" ≠ nm)) := by
  constructor
  · intro p hp
    have hmap : (o.name.zip o.position).map Prod.fst = o.name :=
      List.map_fst_zip _ _ (le_of_eq hlen)
    have hnd2 : ((o.name.zip o.position).map Prod.fst).Nodup := by
      rw [hmap]; exact hnd
    have hkn2 : ∀ p2 ∈ o.name.zip o.position, p2.1 ∈ s.joint_map := by
      intro p2 h2
      exact hknown p2.1 (by rw [← hmap]; exact List.mem_map_of_mem Prod.fst h2)
    have hlen2 : s.joint_map.length = (uninitVec (num_joints s) mem0).length := by
      rw [uninitVec_length]; exact hwf
    have := applyPairs_roundtrip s (o.name.zip o.position)
      (uninitVec (num_joints s) mem0) hnd2 hkn2 hlen2 p hp
    simpa [GetInitialJoints] using this
  · intro nm
    exact ⟨jointIndexGo_eq_neg_one_iff nm s.joint_map,
      fun i hi => jointIndexGo_spec nm s.joint_map i hi⟩

/-- C6 witness: the two-joint fixture with observation (j1 ↦ 4, j0 ↦ 6). -/
theorem getInitialJoints_roundtrip_witness :
    obsDistinct.name.length = obsDistinct.position.length ∧
    obsDistinct.name.Nodup ∧
    (∀ nm ∈ obsDistinct.name, nm ∈ stateB.joint_map) ∧
    stateB.joint_map.length = num_joints stateB ∧
    ((∀ p ∈ obsDistinct.name.zip obsDistinct.position,
      ∃ i : ℕ, GetJointIndex stateB p.1 = (i : Int) ∧
        ((GetInitialJoints stateB obsDistinct []).headD []).getD i 0 = p.2) ∧
    (∀ nm : String,
      (GetJointIndex stateB nm = -1 ↔ nm ∉ stateB.joint_map) ∧
      (∀ i : ℕ, GetJointIndex stateB nm = (i : Int) →
        i < stateB.joint_map.length ∧ stateB.joint_map.getD i "" = nm ∧
          ∀ j < i, stateB.joint_map.getD j "" ≠ nm))) :=
  ⟨rfl, by decide, by decide, rfl,
   getInitialJoints_roundtrip stateB obsDistinct [] rfl (by decide)
     (by decide) rfl⟩

/-- C5 (amended): unknown names resolve to `-1` and write nothing — the
produced vector equals the one from the observation with unknown names
filtered out, so one unknown name never prevents the remaining fields from
being applied; a known-name field is applied in observation order, so the
vector holds at its index the angle of the *last* field writing that index
(an earlier duplicate of the same name is overwritten). -/
theorem getInitialJoints_drops_unknown (s : KState) (o : JointObs)
    (mem0 : List ℚ) :
    (∀ nm : String, nm ∉ s.joint_map → GetJointIndex s nm = -1) ∧
    GetInitialJoints s o mem0 = GetInitialJoints s (filterKnown s o) mem0 ∧
    (∀ (l1 l2 : List (String × ℚ)) (nm : String) (a : ℚ) (i : ℕ),
      o.name.zip o.position = l1 ++ (nm, a) :: l2 →
      GetJointIndex s nm = (i : Int) →
      (∀ p ∈ l2, GetJointIndex s p.1 ≠ (i : Int)) →
      s.joint_map.length = num_joints s →
      ((GetInitialJoints s o mem0).headD []).getD i 0 = a) := by
  refine ⟨?_, ?_, ?_⟩
  · intro nm h
    exact (jointIndexGo_eq_neg_one_iff nm s.joint_map).mpr h
  · unfold GetInitialJoints filterKnown
    simp only [zip_map_fst_snd]
    rw [← applyPairs_filter]
  · intro l1 l2 nm a i hsplit hi hl2 hwf
    have hbig : ((GetInitialJoints s o mem0).headD []) =
        applyPairs s l2
          (if 0 ≤ GetJointIndex s nm then
            (applyPairs s l1 (uninitVec (num_joints s) mem0)).set
              (GetJointIndex s nm).toNat a
           else applyPairs s l1 (uninitVec (num_joints s) mem0)) := by
      simp only [GetInitialJoints, List.headD]
      rw [hsplit, applyPairs_append, applyPairs_cons]
    rw [hbig, applyPairs_getD_untouched s i l2 _ hl2]
    have hge : 0 ≤ GetJointIndex s nm := by rw [hi]; omega
    rw [if_pos hge]
    have htn : (GetJointIndex s nm).toNat = i := by rw [hi]; rfl
    rw [htn]
    obtain ⟨hlt, _, _⟩ := jointIndexGo_spec nm s.joint_map i hi
    have hsl : (applyPairs s l1 (uninitVec (num_joints s) mem0)).length =
        num_joints s := by
      rw [applyPairs_length, uninitVec_length]
    exact listSet_getD_self _ i a 0 (by omega)

/-- C5 counterexample: the claim as stated asserts that *every* pair with a
present name ends up in the vector; with a duplicated known name, the first
pair's angle (1) is overwritten by the later pair (2), so the vector does
not hold the first pair's angle at its index. -/
theorem c5_duplicate_field_counterexample :
    ("j0", (1 : ℚ)) ∈ obsDup.name.zip obsDup.position ∧
    GetJointIndex stateB "j0" = 0 ∧
    ((GetInitialJoints stateB obsDup []).headD []).getD 0 0 ≠ 1 :=
  ⟨by decide, by decide, by decide⟩

/-- C5 witness: with an unknown name (`ghost`) in the middle of the
observation, that field is dropped and the two known fields around it are
both applied. -/
theorem getInitialJoints_drops_unknown_witness :
    GetJointIndex stateB "ghost" = -1 ∧
    GetInitialJoints stateB obsMixed [] =
      GetInitialJoints stateB (filterKnown stateB obsMixed) [] ∧
    ((GetInitialJoints stateB obsMixed []).headD []).getD 0 0 = 5 :=
  ⟨(getInitialJoints_drops_unknown stateB obsMixed []).1 "ghost" (by decide),
   (getInitialJoints_drops_unknown stateB obsMixed []).2.1,
   (getInitialJoints_drops_unknown stateB obsMixed []).2.2
     [] [("ghost", 7), ("j1", 9)] "j0" 5 0 rfl (by decide) (by decide) rfl⟩

/-- C1 (amended): whenever `set_joint_angles(q)` actually recomputes (the
cached vector is empty or not approximately equal to `q`), `q` has the
topology's joint count, and the camera frame and the tracked link are
segments of the tree, the stored pose of the tracked link equals the inverse
of the camera frame's forward kinematics under `q` composed with the link's
forward kinematics under `q`. -/
theorem set_joint_angles_camera_relative (s : KState) (q : List ℚ)
    (hrun : s.jnt_array.length = 0 ∨ eigenIsApprox s.jnt_array q = false)
    (hq : q.length = s.tree.nrJoints)
    (hcam : ∃ c ∈ s.tree.segments, c.name = s.cam_frame_name)
    (n : String) (hn : n ∈ s.mesh_names)
    (hseg : ∃ sg ∈ s.tree.segments, sg.name = n) :
    ∃ cf lf,
      jntToCart s.tree q s.cam_frame_name = some cf ∧
      jntToCart s.tree q n = some lf ∧
      mapLookup (set_joint_angles s q).frame_map n =
        some (Frame.mul cf.inverse lf) := by
  have hlen : ¬ q.length ≠ s.tree.nrJoints := by
    intro h
    exact h hq
  have hfc : ∃ csg, findSeg s.tree s.cam_frame_name = some csg := by
    obtain ⟨c, hcm, hcn⟩ := hcam
    have hsome : (findSeg s.tree s.cam_frame_name).isSome = true := by
      unfold findSeg
      exact List.find?_isSome.mpr ⟨c, hcm, by simp [hcn]⟩
    exact Option.isSome_iff_exists.mp hsome
  obtain ⟨csg, hcsg⟩ := hfc
  have hfn : ∃ nsg, findSeg s.tree n = some nsg := by
    obtain ⟨c, hcm, hcn⟩ := hseg
    have hsome : (findSeg s.tree n).isSome = true := by
      unfold findSeg
      exact List.find?_isSome.mpr ⟨c, hcm, by simp [hcn]⟩
    exact Option.isSome_iff_exists.mp hsome
  obtain ⟨nsg, hnsg⟩ := hfn
  have hjcam : jntToCart s.tree q s.cam_frame_name =
      some (recursiveFk s.tree q (s.tree.segments.length + 1) csg) := by
    unfold jntToCart
    rw [if_neg hlen, hcsg]
  have hjn : jntToCart s.tree q n =
      some (recursiveFk s.tree q (s.tree.segments.length + 1) nsg) := by
    unfold jntToCart
    rw [if_neg hlen, hnsg]
  refine ⟨_, _, hjcam, hjn, ?_⟩
  have hset : set_joint_angles s q =
      ComputeLinkTransforms { s with jnt_array := q } := by
    unfold set_joint_angles
    rw [if_pos hrun]
  rw [hset]
  unfold ComputeLinkTransforms
  simp only [hjcam, hjn]
  have := foldl_insert_lookup_mem s.mesh_names
    (fun nm => Frame.mul
      (recursiveFk s.tree q (s.tree.segments.length + 1) csg).inverse
      (match jntToCart s.tree q nm with
       | some f => f
       | none => Frame.identity))
    s.tree.segments s.frame_map n (by simpa using hn) hseg
  simp only [hjn] at this
  exact this

/-- C1 counterexample: after a first call with `[1]`, a second
`set_joint_angles` with the approximately equal (Eigen default tolerance)
vector `[1 + 1e-13]` is a no-op, so the stored pose of tracked link `link1`
is the pose under the stale `[1]`, not the claimed pose under the new
vector. -/
theorem c1_approx_equal_stale_pose_counterexample :
    "link1" ∈ stateA2.mesh_names ∧
    jntToCart stateA2.tree qNear1 stateA2.cam_frame_name =
      some Frame.identity ∧
    jntToCart stateA2.tree qNear1 "link1" =
      some ⟨Rot.identity, ⟨1 + 1 / 10 ^ 13, 0, 0⟩⟩ ∧
    mapLookup stateA2.frame_map "link1" ≠
      some (Frame.mul Frame.identity.inverse
        ⟨Rot.identity, ⟨1 + 1 / 10 ^ 13, 0, 0⟩⟩) :=
  ⟨by decide, by decide, by decide, by decide⟩

/-- As long as the two rendering roots are not both the global root's name,
the ancestor walk never takes a step: its conjunction of three name
comparisons cannot hold. -/
theorem ancestorWalk_noop (u : UrdfModel) (lft rgt glob : String)
    (hconf : ¬(lft = glob ∧ rgt = glob)) (fuel : ℕ) (l : UrdfLink) :
    ancestorWalk u lft rgt glob (fuel + 1) l = some l := by
  have h : ¬(l.lname = lft ∧ l.lname = rgt ∧ l.lname = glob) := by
    rintro ⟨h1, h2, h3⟩
    exact hconf ⟨h1 ▸ h3, h2 ▸ h3⟩
  simp [ancestorWalk, h]

/-- The link loop of `get_part_meshes` under a non-degenerate rendering
configuration: it appends exactly the proper-mesh links not named as the
global root. -/
theorem partMeshLoop_keeps (u : UrdfModel) (lft rgt glob : String)
    (hconf : ¬(lft = glob ∧ rgt = glob)) :
    ∀ (links : List UrdfLink) (pm mn : List String),
      partMeshLoop u lft rgt glob links pm mn =
        some
          (pm ++ (links.filter
            (fun l => !(decide (l.lname = glob)) && l.properMesh)).map
            (fun l => l.lname),
           mn ++ (links.filter
            (fun l => !(decide (l.lname = glob)) && l.properMesh)).map
            (fun l => l.lname)) := by
  intro links
  induction links with
  | nil => intro pm mn; simp [partMeshLoop]
  | cons l rest ih =>
    intro pm mn
    rw [partMeshLoop, ancestorWalk_noop u lft rgt glob hconf]
    by_cases hroot : l.lname = glob
    · simp only [hroot, if_pos rfl, List.filter_cons, decide_eq_true_eq]
      simp [hroot, ih]
    · by_cases hp : l.properMesh
      · simp only [if_neg hroot]
        rw [if_pos hp, ih (pm ++ [l.lname]) (mn ++ [l.lname])]
        simp [List.filter_cons, hroot, hp]
      · simp only [if_neg hroot]
        rw [if_neg hp, ih pm mn]
        simp [List.filter_cons, hroot, hp]

/-- C9 (amended): provided the two configured rendering roots are not both
equal to the global root's name, `get_part_meshes` returns a part and mesh
entry for every URDF link with a proper mesh except links named as the
global root — the result does not depend on `rendering_root_left_` or
`rendering_root_right_`, because the ancestor walk never advances.  (With
both roots equal to the global root, the walk steps past the root's null
parent; see the counterexample.) -/
theorem get_part_meshes_ignores_rendering_roots (s : KState)
    (hconf : ¬(s.rendering_root_left = s.urdf.rootName ∧
      s.rendering_root_right = s.urdf.rootName)) :
    get_part_meshes s =
      some (keptMeshNames s.urdf,
        { s with mesh_names := s.mesh_names ++ keptMeshNames s.urdf }) := by
  unfold get_part_meshes keptMeshNames
  rw [partMeshLoop_keeps s.urdf s.rendering_root_left s.rendering_root_right
    s.urdf.rootName hconf s.urdf.links [] s.mesh_names]
  simp

/-- C9 counterexample: with both rendering roots configured equal to the
global root's name, the walk's condition does hold at the root link, the
loop dereferences the root's null parent, and `get_part_meshes` crashes
(returns no mesh list at all) instead of returning the claimed list. -/
theorem c9_roots_equal_global_counterexample :
    stateRootsEqRoot.rendering_root_left = stateRootsEqRoot.urdf.rootName ∧
    stateRootsEqRoot.rendering_root_right = stateRootsEqRoot.urdf.rootName ∧
    get_part_meshes stateRootsEqRoot = none :=
  ⟨rfl, rfl, rfl⟩

/-- C9 witness: on the fixture (rendering roots "L" and "R", global root
"base"), the proper-mesh link `link1` is kept and nothing is filtered by the
rendering roots. -/
theorem get_part_meshes_ignores_rendering_roots_witness :
    ¬(stateA.rendering_root_left = stateA.urdf.rootName ∧
      stateA.rendering_root_right = stateA.urdf.rootName) ∧
    get_part_meshes stateA =
      some (keptMeshNames stateA.urdf,
        { stateA with
            mesh_names := stateA.mesh_names ++ keptMeshNames stateA.urdf }) :=
  ⟨by decide, get_part_meshes_ignores_rendering_roots stateA (by decide)⟩

/-- C1 witness: a first call on the fixture (empty cache) with `[2]` stores
the camera-relative pose of `link1` under `[2]`. -/
theorem set_joint_angles_camera_relative_witness :
    (stateA.jnt_array.length = 0 ∨ eigenIsApprox stateA.jnt_array [2] = false) ∧
    [(2 : ℚ)].length = stateA.tree.nrJoints ∧
    (∃ c ∈ stateA.tree.segments, c.name = stateA.cam_frame_name) ∧
    "link1" ∈ stateA.mesh_names ∧
    (∃ sg ∈ stateA.tree.segments, sg.name = "link1") ∧
    (∃ cf lf,
      jntToCart stateA.tree [2] stateA.cam_frame_name = some cf ∧
      jntToCart stateA.tree [2] "link1" = some lf ∧
      mapLookup (set_joint_angles stateA [2]).frame_map "link1" =
        some (Frame.mul cf.inverse lf)) :=
  ⟨Or.inl rfl, rfl, by decide, by decide, by decide,
   set_joint_angles_camera_relative stateA [2] (Or.inl rfl) rfl
     (by decide) "link1" (by decide) (by decide)⟩

/-- C2 (amended): a second `set_joint_angles` call with a vector
approximately equal (Eigen default tolerance) to the nonempty cached one is
a complete no-op — the state (camera frame, every cached link frame, and the
ghost recomputation counter) is unchanged, so the forward-kinematics
traversal is not re-run. -/
theorem set_joint_angles_value_equal_noop (s : KState) (q : List ℚ)
    (hne : s.jnt_array.length ≠ 0)
    (happ : eigenIsApprox s.jnt_array q = true) :
    set_joint_angles s q = s ∧
    (set_joint_angles s q).recomputations = s.recomputations := by
  have hcond : ¬ (s.jnt_array.length = 0 ∨ eigenIsApprox s.jnt_array q = false) := by
    rintro (h | h)
    · exact hne h
    · rw [happ] at h
      cases h
  unfold set_joint_angles
  rw [if_neg hcond]
  exact ⟨rfl, rfl⟩

/-- C2 witness: the fixture state after one call with `[1]` is untouched by
a second call with the same vector. -/
theorem set_joint_angles_value_equal_noop_witness :
    stateA1.jnt_array.length ≠ 0 ∧
    eigenIsApprox stateA1.jnt_array [1] = true ∧
    (set_joint_angles stateA1 [1] = stateA1 ∧
      (set_joint_angles stateA1 [1]).recomputations = stateA1.recomputations) :=
  ⟨by decide, by decide,
   set_joint_angles_value_equal_noop stateA1 [1] (by decide) (by decide)⟩

/-- C2 counterexample: on a zero-joint robot the cached vector after a first
call is the empty vector; a second call with the (value-equal, by Eigen's
`isApprox`) empty vector re-runs the forward-kinematics recomputation, since
the `size() == 0` guard fires regardless of the cache contents. -/
theorem c2_empty_vector_recompute_counterexample :
    eigenIsApprox state0After.jnt_array [] = true ∧
    (set_joint_angles state0After []).recomputations ≠
      state0After.recomputations := by
  constructor <;> decide

/-- C3: whenever the joint's limits satisfy lower ≤ upper, the perturbation
(the clipped Gaussian draw) lies inside `[lower_limit_, upper_limit_]`, for
every current angle, ratio and drawn value. -/
theorem getRandomPertubation_within_limits (s : KState) (jnt_index : ℕ)
    (jnt_angle ratio sampled : ℚ)
    (hle : s.lower_limit.getD jnt_index 0 ≤ s.upper_limit.getD jnt_index 0) :
    s.lower_limit.getD jnt_index 0 ≤
      GetRandomPertubation s jnt_index jnt_angle ratio sampled ∧
    GetRandomPertubation s jnt_index jnt_angle ratio sampled ≤
      s.upper_limit.getD jnt_index 0 := by
  unfold GetRandomPertubation
  dsimp only
  constructor <;> (split_ifs with h1 h2 <;> linarith)

/-- C3 witness: a draw of 100 on the fixture joint with limits [-3, 3] is
clipped into the interval. -/
theorem getRandomPertubation_within_limits_witness :
    stateA.lower_limit.getD 0 0 ≤ stateA.upper_limit.getD 0 0 ∧
    (stateA.lower_limit.getD 0 0 ≤ GetRandomPertubation stateA 0 0 1 100 ∧
      GetRandomPertubation stateA 0 0 1 100 ≤ stateA.upper_limit.getD 0 0) :=
  ⟨by decide, getRandomPertubation_within_limits stateA 0 0 1 100 (by decide)⟩

/-- C8: forward kinematics is deterministic — the embedding threads all
state explicitly and `set_joint_angles` reads nothing besides the state and
its argument (the random generator member is used only by
`GetRandomPertubation`), so two runs on the same state with equal vectors
produce identical states, and every link query returns identical results. -/
theorem set_joint_angles_deterministic (s : KState) (q1 q2 : List ℚ)
    (h : q1 = q2) :
    set_joint_angles s q1 = set_joint_angles s q2 ∧
    (∀ idx, get_link_position (set_joint_angles s q1) idx =
      get_link_position (set_joint_angles s q2) idx) ∧
    (∀ idx, get_link_orientation (set_joint_angles s q1) idx =
      get_link_orientation (set_joint_angles s q2) idx) ∧
    (∀ idx, get_link_pose (set_joint_angles s q1) idx =
      get_link_pose (set_joint_angles s q2) idx) := by
  subst h
  exact ⟨rfl, fun _ => rfl, fun _ => rfl, fun _ => rfl⟩

/-- C8 witness: determinism at the fixture state and vector `[1]`. -/
theorem set_joint_angles_deterministic_witness :
    set_joint_angles stateA [1] = set_joint_angles stateA [1] ∧
    (∀ idx, get_link_position (set_joint_angles stateA [1]) idx =
      get_link_position (set_joint_angles stateA [1]) idx) ∧
    (∀ idx, get_link_orientation (set_joint_angles stateA [1]) idx =
      get_link_orientation (set_joint_angles stateA [1]) idx) ∧
    (∀ idx, get_link_pose (set_joint_angles stateA [1]) idx =
      get_link_pose (set_joint_angles stateA [1]) idx) :=
  set_joint_angles_deterministic stateA [1] [1] rfl

/-- C10: with an empty pose map (no `set_joint_angles` yet), the link
queries do not fail: the map subscript default-inserts a `KDL::Frame()`
(identity), so the position is (0,0,0), the orientation is the identity
rotation, the pose combines the two, and the queried name is afterwards
bound to the identity frame in the map. -/
theorem get_link_queries_before_set (s : KState) (idx : ℕ)
    (h : s.frame_map = []) :
    (get_link_position s idx).2 = Vec3.zero ∧
    (get_link_orientation s idx).2 = Rot.identity ∧
    (get_link_pose s idx).2 = (Rot.identity, Vec3.zero) ∧
    mapLookup (get_link_position s idx).1.frame_map (GetLinkName s idx) =
      some Frame.identity := by
  simp [get_link_position, get_link_orientation, get_link_pose,
    mapGetOrInsert, mapLookup, h, GetLinkName, Frame.identity]

/-- C10 witness: the fixture state before any `set_joint_angles`, queried at
link index 0. -/
theorem get_link_queries_before_set_witness :
    stateA.frame_map = [] ∧
    ((get_link_position stateA 0).2 = Vec3.zero ∧
      (get_link_orientation stateA 0).2 = Rot.identity ∧
      (get_link_pose stateA 0).2 = (Rot.identity, Vec3.zero) ∧
      mapLookup (get_link_position stateA 0).1.frame_map (GetLinkName stateA 0) =
        some Frame.identity) :=
  ⟨rfl, get_link_queries_before_set stateA 0 rfl⟩

end DbrtKin
